import Mathlib

/-!
Verification of the multithreaded matrix row-sum reduction program
(src/reduce.cpp).

The program sums a rows × cols integer matrix with N worker threads using
either a static (round-robin) or a dynamic (shared-counter) partitioning
strategy, then aggregates per-worker results into total_work and gross_sum.

Shallow embedding notes.
The source hardcodes rows = 1000 and cols = 100; the definitions below
take the dimensions R and C as parameters (the spec itself asks for the
dimensions to be configuration parameters) and the constants are kept as
defs.  The matrix is a parameter work : N -> N -> N; its entries come from
rand(), hence are nonnegative ints, so naturals model them exactly.
Per-worker accumulators sum[tid] and gross_sum are uint64_t in the source:
every += is modelled as addition modulo 2 ^ 64.  tcount entries and
total_work are C ints holding values at most R, modelled as naturals.

Concurrency.  In the dynamic strategy every claim (the test of the shared
counter together with its decrement and the copy into count_copy) is a
single critical section under counter_lock, and the rest of a loop
iteration touches only the claiming worker's own vector slots.  A whole
loop iteration of one worker is therefore modelled as one atomic step, and
an execution is a schedule: the list of worker ids in the order in which
they win the lock.  All theorems about the dynamic strategy quantify over
the schedule.  In the static strategy workers share no mutable state at
all, so each worker is an independent sequential loop.
-/

namespace Reduce

/-- constexpr int rows = 1000 in the source. -/
def rows : ℕ := 1000

/-- constexpr int cols = 100 in the source. -/
def cols : ℕ := 100

/-- Modulus of the uint64_t accumulators. -/
def U64 : ℕ := 2 ^ 64

/-- One += of a value onto a uint64_t accumulator. -/
def u64add (a b : ℕ) : ℕ := (a + b) % U64

/-- The inner column loop: for i in [0, C), acc += work[r][i], on a
uint64_t accumulator. -/
def addRow (work : ℕ → ℕ → ℕ) (C r s : ℕ) : ℕ :=
  (List.range C).foldl (fun acc i => u64add acc (work r i)) s

/-- Exact (mathematical) sum of row r of the matrix. -/
def rowTotal (work : ℕ → ℕ → ℕ) (C r : ℕ) : ℕ :=
  ∑ i ∈ Finset.range C, work r i

/-- Exact sum of all R × C matrix entries. -/
def matrixTotal (work : ℕ → ℕ → ℕ) (R C : ℕ) : ℕ :=
  ∑ r ∈ Finset.range R, rowTotal work C r

theorem U64_pos : 0 < U64 := by
  have h : U64 = 2 ^ 64 := rfl
  rw [h]
  exact Nat.pos_pow_of_pos 64 (by omega)

/-- Folding u64add of g over List.range n starting below the modulus is
addition of the exact sum followed by one reduction. -/
theorem foldl_u64add_range (g : ℕ → ℕ) (n : ℕ) (s : ℕ) (hs : s < U64) :
    (List.range n).foldl (fun acc i => u64add acc (g i)) s
      = (s + ∑ i ∈ Finset.range n, g i) % U64 := by
  induction n with
  | zero =>
      simp [Nat.mod_eq_of_lt hs]
  | succ n ih =>
      rw [List.range_succ, List.foldl_append, ih]
      simp only [List.foldl_cons, List.foldl_nil, u64add]
      rw [Nat.mod_add_mod, Finset.sum_range_succ, Nat.add_assoc]

/-- addRow is one exact row total added modulo 2 ^ 64. -/
theorem addRow_spec (work : ℕ → ℕ → ℕ) (C r s : ℕ) (hs : s < U64) :
    addRow work C r s = (s + rowTotal work C r) % U64 :=
  foldl_u64add_range (work r) C s hs

/-- The result of addRow on a reduced accumulator is reduced. -/
theorem addRow_lt (work : ℕ → ℕ → ℕ) (C r s : ℕ) (hs : s < U64) :
    addRow work C r s < U64 := by
  rw [addRow_spec work C r s hs]
  exact Nat.mod_lt _ U64_pos

/-!
Static strategy (sum_static in the source).  The loop state carries the
local variable row, the worker's slots tcount[tid] and sum[tid], the done
flag, and a ghost trace of the rows processed, in order.
-/

/-- Loop state of one sum_static worker, plus a ghost trace of processed
rows. -/
structure StaticState where
  row : ℕ
  tc : ℕ
  s : ℕ
  done : Bool
  trace : List ℕ
deriving DecidableEq

/-- One iteration of the while loop of sum_static: if row >= R set done;
otherwise add row's C columns to sum[tid], advance row by N (the thread
count) and bump tcount[tid]. -/
def staticStep (work : ℕ → ℕ → ℕ) (R C N : ℕ) (st : StaticState) : StaticState :=
  if R ≤ st.row then { st with done := true }
  else { row := st.row + N, tc := st.tc + 1, s := addRow work C st.row st.s,
         done := st.done, trace := st.trace ++ [st.row] }

/-- The while loop, with explicit fuel; R + 1 iterations suffice whenever
N >= 1 (see staticRun_done_of_fuel). -/
def staticRun (work : ℕ → ℕ → ℕ) (R C N : ℕ) : ℕ → StaticState → StaticState
  | 0, st => st
  | fuel + 1, st =>
      if st.done then st else staticRun work R C N fuel (staticStep work R C N st)

/-- Initial state of worker tid: row = tid, zero counters, not done. -/
def staticInit (tid : ℕ) : StaticState :=
  { row := tid, tc := 0, s := 0, done := false, trace := [] }

/-- The whole sum_static worker body for thread id tid and thread count N,
run with the given fuel. -/
def sum_static (work : ℕ → ℕ → ℕ) (R C N tid fuel : ℕ) : StaticState :=
  staticRun work R C N fuel (staticInit tid)

/-- Number of rows the static worker processes when its loop starts at the
given row: the number of k with row + N * k < R. -/
def staticK (R N row : ℕ) : ℕ := (R - row + N - 1) / N

/-- The stride sequence row, row + N, row + 2N, ... restricted below R. -/
def staticRowsList (R N row : ℕ) : List ℕ :=
  (List.range (staticK R N row)).map (fun k => row + N * k)

theorem staticRun_of_done (work : ℕ → ℕ → ℕ) (R C N : ℕ) (fuel : ℕ)
    (st : StaticState) (h : st.done = true) :
    staticRun work R C N fuel st = st := by
  cases fuel with
  | zero => rfl
  | succ fuel => simp [staticRun, h]

theorem staticK_of_ge (R N row : ℕ) (hN : 1 ≤ N) (h : R ≤ row) :
    staticK R N row = 0 := by
  have h0 : R - row = 0 := by omega
  have h1 : N - 1 < N := by omega
  simp only [staticK, h0]
  rw [Nat.zero_add]
  exact Nat.div_eq_of_lt h1

theorem staticK_of_lt (R N row : ℕ) (hN : 1 ≤ N) (h : row < R) :
    staticK R N row = staticK R N (row + N) + 1 := by
  simp only [staticK]
  rcases Nat.lt_or_ge R (row + N + 1) with hc | hc
  · -- last iteration: R - (row + N) = 0
    have h0 : R - (row + N) = 0 := by omega
    rw [h0, Nat.zero_add]
    rw [Nat.div_eq_of_lt (by omega : N - 1 < N)]
    have hlo : 1 * N ≤ R - row + N - 1 := by omega
    have hhi : R - row + N - 1 < 2 * N := by omega
    have := Nat.div_eq_of_lt_le hlo (by omega : R - row + N - 1 < (1 + 1) * N)
    omega
  · -- at least one further iteration
    have h1 : R - row + N - 1 = (R - (row + N) + N - 1) + N := by omega
    rw [h1, Nat.add_div_right _ (by omega : 0 < N)]

theorem staticK_mem_iff (R N row k : ℕ) (hN : 1 ≤ N) :
    k < staticK R N row ↔ row + N * k < R := by
  simp only [staticK]
  have hpos : 0 < N := by omega
  have hdiv : k + 1 ≤ (R - row + N - 1) / N ↔ (k + 1) * N ≤ R - row + N - 1 :=
    Nat.le_div_iff_mul_le hpos
  constructor
  · intro hk
    have hmul : (k + 1) * N ≤ R - row + N - 1 := hdiv.mp (by omega)
    have : k * N + N ≤ R - row + N - 1 := by
      have : (k + 1) * N = k * N + N := by ring
      omega
    have hkN : N * k = k * N := Nat.mul_comm N k
    omega
  · intro hk
    have hkN : N * k = k * N := Nat.mul_comm N k
    have hmul : (k + 1) * N ≤ R - row + N - 1 := by
      have : (k + 1) * N = k * N + N := by ring
      omega
    have := hdiv.mpr hmul
    omega

/-- Full characterization of the sum_static loop for thread count N >= 1:
starting from any not-done state with a reduced accumulator and fuel
exceeding R - row, the loop terminates with done = true, having processed
exactly the stride sequence row, row + N, row + 2N, ... below R, bumped tc
once per processed row, and added each processed row's total to the
accumulator modulo 2 ^ 64. -/
theorem staticRun_spec (work : ℕ → ℕ → ℕ) (R C N : ℕ) (hN : 1 ≤ N) :
    ∀ fuel row tc s trace, s < U64 → R - row < fuel →
    staticRun work R C N fuel { row := row, tc := tc, s := s, done := false, trace := trace } =
      { row := row + N * staticK R N row,
        tc := tc + staticK R N row,
        s := (s + ∑ k ∈ Finset.range (staticK R N row), rowTotal work C (row + N * k)) % U64,
        done := true,
        trace := trace ++ staticRowsList R N row } := by
  intro fuel
  induction fuel with
  | zero => intro row tc s trace hs hf; omega
  | succ fuel ih =>
    intro row tc s trace hs hf
    rcases Nat.lt_or_ge row R with hrow | hrow
    · have hnle : ¬ R ≤ row := Nat.not_le.mpr hrow
      have hstep : staticRun work R C N (fuel + 1)
            { row := row, tc := tc, s := s, done := false, trace := trace }
          = staticRun work R C N fuel
            { row := row + N, tc := tc + 1, s := addRow work C row s, done := false,
              trace := trace ++ [row] } := by
        simp [staticRun, staticStep, hnle]
      rw [hstep,
        ih (row + N) (tc + 1) (addRow work C row s) (trace ++ [row])
          (addRow_lt work C row s hs) (by omega),
        staticK_of_lt R N row hN hrow]
      simp only [StaticState.mk.injEq]
      refine ⟨by ring, by ring, ?_, ?_⟩
      · rw [addRow_spec work C row s hs, Nat.mod_add_mod, Finset.sum_range_succ']
        have harg : ∀ k : ℕ, row + N * (k + 1) = row + N + N * k := fun k => by ring
        simp only [harg, Nat.mul_zero, Nat.add_zero]
        congr 1
        ring
      · rw [List.append_assoc]
        have hfun : ((fun k => row + N * k) ∘ Nat.succ) = fun k => row + N + N * k := by
          funext k
          simp only [Function.comp_apply, Nat.succ_eq_add_one]
          ring
        simp [staticRowsList, staticK_of_lt R N row hN hrow, List.range_succ_eq_map,
          List.map_cons, List.map_map, hfun]
    · rw [staticK_of_ge R N row hN hrow]
      have hstep : staticStep work R C N ⟨row, tc, s, false, trace⟩
          = ⟨row, tc, s, true, trace⟩ := by
        simp [staticStep, hrow]
      simp only [staticRun]
      rw [if_neg (by simp), hstep, staticRun_of_done work R C N fuel _ rfl]
      simp [Nat.mod_eq_of_lt hs, staticRowsList, staticK_of_ge R N row hN hrow]

/-- The sum_static worker terminates (reaches done = true) with fuel R + 1
whenever the thread count is at least 1; its processed-row trace is the
stride sequence, tc counts it, and the accumulator holds the reduced sum
of the processed rows. -/
theorem sum_static_spec (work : ℕ → ℕ → ℕ) (R C N tid fuel : ℕ) (hN : 1 ≤ N)
    (hfuel : R < fuel) :
    sum_static work R C N tid fuel =
      { row := tid + N * staticK R N tid,
        tc := staticK R N tid,
        s := (∑ k ∈ Finset.range (staticK R N tid), rowTotal work C (tid + N * k)) % U64,
        done := true,
        trace := staticRowsList R N tid } := by
  have h := staticRun_spec work R C N hN fuel tid 0 0 [] U64_pos (by omega)
  rw [sum_static, staticInit, h]
  simp

/-- A row r is in worker tid's stride list iff it is of the form
tid + N * k and lies below R. -/
theorem mem_staticRowsList (R N row r : ℕ) (hN : 1 ≤ N) :
    r ∈ staticRowsList R N row ↔ (∃ k, r = row + N * k) ∧ r < R := by
  simp only [staticRowsList, List.mem_map, List.mem_range]
  constructor
  · rintro ⟨k, hk, rfl⟩
    exact ⟨⟨k, rfl⟩, (staticK_mem_iff R N row k hN).mp hk⟩
  · rintro ⟨⟨k, rfl⟩, hr⟩
    exact ⟨k, (staticK_mem_iff R N row k hN).mpr hr, rfl⟩

/-- A static worker processes no row twice. -/
theorem staticRowsList_nodup (R N row : ℕ) (hN : 1 ≤ N) :
    (staticRowsList R N row).Nodup := by
  apply List.Nodup.map ?hinj (List.nodup_range _)
  intro a b hab
  have := Nat.add_left_cancel hab
  exact Nat.eq_of_mul_eq_mul_left (by omega) this

theorem count_eq_ite_of_nodup {l : List ℕ} (h : l.Nodup) (r : ℕ) :
    l.count r = if r ∈ l then 1 else 0 := by
  by_cases hr : r ∈ l
  · rw [if_pos hr]
    exact List.count_eq_one_of_mem h hr
  · rw [if_neg hr]
    exact List.count_eq_zero_of_not_mem hr

theorem sum_map_range (g : ℕ → ℕ) (n : ℕ) :
    ((List.range n).map g).sum = ∑ i ∈ Finset.range n, g i := by
  induction n with
  | zero => simp
  | succ n ih =>
      rw [List.range_succ, List.map_append, List.sum_append, Finset.sum_range_succ, ih]
      simp

theorem count_flatMap_range (n : ℕ) (f : ℕ → List ℕ) (r : ℕ) :
    ((List.range n).flatMap f).count r = ∑ t ∈ Finset.range n, (f t).count r := by
  rw [List.flatMap, List.count_flatten, List.map_map]
  exact sum_map_range (fun t => (f t).count r) n

/-- Reindexing of a double sum over workers and their stride positions as
a sum over all rows below R: the map (tid, k) to tid + N * k is a
bijection onto [0, R). -/
theorem sum_strides (R N : ℕ) (hN : 1 ≤ N) (f : ℕ → ℕ) :
    (∑ tid ∈ Finset.range N, ∑ k ∈ Finset.range (staticK R N tid), f (tid + N * k))
      = ∑ r ∈ Finset.range R, f r := by
  rw [Finset.sum_sigma']
  apply Finset.sum_bij (fun p _ => p.1 + N * p.2)
  · rintro ⟨tid, k⟩ hp
    simp only [Finset.mem_sigma, Finset.mem_range] at hp
    simp only [Finset.mem_range]
    exact (staticK_mem_iff R N tid k hN).mp hp.2
  · rintro ⟨t1, k1⟩ h1 ⟨t2, k2⟩ h2 heq
    simp only [Finset.mem_sigma, Finset.mem_range] at h1 h2
    have hmod : ∀ t k : ℕ, t < N → (t + N * k) % N = t := by
      intro t k ht
      rw [Nat.mul_comm, Nat.add_mul_mod_self_right]
      exact Nat.mod_eq_of_lt ht
    have ht : t1 = t2 := by
      have e1 := hmod t1 k1 h1.1
      have e2 := hmod t2 k2 h2.1
      rw [← e1, ← e2, heq]
    subst ht
    have hk : k1 = k2 := Nat.eq_of_mul_eq_mul_left (by omega) (Nat.add_left_cancel heq)
    subst hk
    rfl
  · intro r hr
    simp only [Finset.mem_range] at hr
    have hrw : r % N + N * (r / N) = r := Nat.mod_add_div r N
    refine ⟨⟨r % N, r / N⟩, ?_, hrw⟩
    simp only [Finset.mem_sigma, Finset.mem_range]
    refine ⟨Nat.mod_lt r (by omega), ?_⟩
    apply (staticK_mem_iff R N (r % N) (r / N) hN).mpr
    omega
  · rintro ⟨tid, k⟩ hp
    rfl

/-!
Aggregation (end of main): total_work += tcount.at(i) and
gross_sum += sum.at(i) over all worker ids i < N, gross_sum being a
uint64_t accumulator.
-/

/-- main's total_work aggregate over worker slots tc. -/
def total_workOf (tc : ℕ → ℕ) (N : ℕ) : ℕ := ∑ i ∈ Finset.range N, tc i

/-- main's gross_sum aggregate over worker slots s (uint64_t addition). -/
def gross_sumOf (s : ℕ → ℕ) (N : ℕ) : ℕ :=
  (List.range N).foldl (fun g i => u64add g (s i)) 0

theorem gross_sumOf_eq (s : ℕ → ℕ) (N : ℕ) :
    gross_sumOf s N = (∑ i ∈ Finset.range N, s i) % U64 := by
  rw [gross_sumOf, foldl_u64add_range s N 0 U64_pos, Nat.zero_add]

/-!
Dynamic strategy (sum_dynamic in the source).  The shared state consists
of the guarded counter and the per-worker vector slots; done flags are
per-worker locals; claimed is a ghost chronological trace of the rows that
were claimed (the count_copy values of successful claims).  One dynStep is
one whole loop iteration of one worker: the claim decision is a single
critical section under counter_lock and the remainder of the iteration
writes only the claiming worker's own slots, so serializing whole
iterations in schedule order preserves all final values.
-/

/-- Shared and per-worker state of the dynamic strategy, plus the ghost
trace of claimed rows. -/
structure DynState where
  counter : ℕ
  tcount : ℕ → ℕ
  sums : ℕ → ℕ
  done : ℕ → Bool
  claimed : List ℕ

/-- State before any worker runs: counter = R, zeroed vectors. -/
def dynInit (R : ℕ) : DynState :=
  { counter := R, tcount := fun _ => 0, sums := fun _ => 0, done := fun _ => false,
    claimed := [] }

/-- One loop iteration of sum_dynamic for worker tid: under the lock, if
counter > 0 decrement it and copy the new value into count_copy, else set
done; when a row was claimed, bump tcount[tid] and add row count_copy's C
columns into sum[tid]. -/
def dynStep (work : ℕ → ℕ → ℕ) (C : ℕ) (st : DynState) (tid : ℕ) : DynState :=
  if st.done tid then st
  else if 0 < st.counter then
    { counter := st.counter - 1,
      tcount := Function.update st.tcount tid (st.tcount tid + 1),
      sums := Function.update st.sums tid (addRow work C (st.counter - 1) (st.sums tid)),
      done := st.done,
      claimed := st.claimed ++ [st.counter - 1] }
  else
    { st with done := Function.update st.done tid true }

/-- A full execution: fold the per-iteration step over the schedule, the
list of worker ids in the order in which they win counter_lock. -/
def dynRun (work : ℕ → ℕ → ℕ) (C : ℕ) (sched : List ℕ) (st : DynState) : DynState :=
  sched.foldl (dynStep work C) st

/-- Invariant of the dynamic execution with R rows and N workers. -/
structure DynInv (work : ℕ → ℕ → ℕ) (R C N : ℕ) (st : DynState) : Prop where
  counter_le : st.counter ≤ R
  claimed_eq : st.claimed = (List.range' st.counter (R - st.counter)).reverse
  tcount_sum : (∑ tid ∈ Finset.range N, st.tcount tid) = R - st.counter
  sums_lt : ∀ tid, st.sums tid < U64
  sums_sum : (∑ tid ∈ Finset.range N, st.sums tid) % U64
      = (∑ r ∈ Finset.Ico st.counter R, rowTotal work C r) % U64
  done_counter : ∀ tid, st.done tid = true → st.counter = 0

theorem dynInv_init (work : ℕ → ℕ → ℕ) (R C N : ℕ) :
    DynInv work R C N (dynInit R) := by
  refine ⟨Nat.le_refl R, ?_, ?_, ?_, ?_, ?_⟩
  · simp [dynInit]
  · simp [dynInit]
  · intro tid
    exact U64_pos
  · simp [dynInit]
  · intro tid h
    simp [dynInit] at h

theorem dynInv_step (work : ℕ → ℕ → ℕ) (R C N : ℕ) (st : DynState) (tid : ℕ)
    (htid : tid < N) (h : DynInv work R C N st) :
    DynInv work R C N (dynStep work C st tid) := by
  by_cases hd : st.done tid
  · rw [dynStep, if_pos hd]
    exact h
  · rw [dynStep, if_neg hd]
    by_cases hc : 0 < st.counter
    · rw [if_pos hc]
      have hmem : tid ∈ Finset.range N := Finset.mem_range.mpr htid
      have hcle := h.counter_le
      refine ⟨?_, ?_, ?_, ?_, ?_, ?_⟩
      · show st.counter - 1 ≤ R
        omega
      · -- claimed trace extends by the post-decrement value
        show st.claimed ++ [st.counter - 1]
            = (List.range' (st.counter - 1) (R - (st.counter - 1))).reverse
        have hn : R - (st.counter - 1) = (R - st.counter) + 1 := by omega
        have hsucc : st.counter - 1 + 1 = st.counter := by omega
        rw [h.claimed_eq, hn, List.range'_succ, hsucc, List.reverse_cons]
      · show (∑ t ∈ Finset.range N,
            Function.update st.tcount tid (st.tcount tid + 1) t) = R - (st.counter - 1)
        rw [Finset.sum_update_of_mem hmem, Finset.sdiff_singleton_eq_erase]
        have herase := Finset.add_sum_erase (Finset.range N) st.tcount hmem
        have htc := h.tcount_sum
        omega
      · intro t
        show Function.update st.sums tid (addRow work C (st.counter - 1) (st.sums tid)) t < U64
        by_cases ht : t = tid
        · subst ht
          simp only [Function.update_same]
          exact addRow_lt work C _ _ (h.sums_lt t)
        · simp only [Function.update_noteq ht]
          exact h.sums_lt t
      · show (∑ t ∈ Finset.range N,
            Function.update st.sums tid (addRow work C (st.counter - 1) (st.sums tid)) t) % U64
            = (∑ r ∈ Finset.Ico (st.counter - 1) R, rowTotal work C r) % U64
        rw [Finset.sum_update_of_mem hmem, Finset.sdiff_singleton_eq_erase,
          addRow_spec work C _ _ (h.sums_lt tid), Nat.mod_add_mod]
        have herase := Finset.add_sum_erase (Finset.range N) st.sums hmem
        have hsplit : ∑ r ∈ Finset.Ico (st.counter - 1) R, rowTotal work C r
            = rowTotal work C (st.counter - 1)
              + ∑ r ∈ Finset.Ico st.counter R, rowTotal work C r := by
          have hs2 := Finset.sum_eq_sum_Ico_succ_bot
            (show st.counter - 1 < R by omega) (rowTotal work C)
          have hsucc : st.counter - 1 + 1 = st.counter := by omega
          rw [hs2, hsucc]
        rw [hsplit]
        have hL : st.sums tid + rowTotal work C (st.counter - 1)
              + ∑ x ∈ (Finset.range N).erase tid, st.sums x
            = rowTotal work C (st.counter - 1) + ∑ x ∈ Finset.range N, st.sums x := by
          rw [← herase]
          ring
        rw [hL, Nat.add_mod, h.sums_sum, ← Nat.add_mod]
      · intro t ht
        exact absurd (h.done_counter t ht) (by omega)
    · rw [if_neg hc]
      have hc0 : st.counter = 0 := by omega
      refine ⟨h.counter_le, h.claimed_eq, h.tcount_sum, h.sums_lt, h.sums_sum, ?_⟩
      intro t _
      exact hc0

/-- The invariant is preserved by any schedule whose entries are valid
worker ids. -/
theorem dynInv_run (work : ℕ → ℕ → ℕ) (R C N : ℕ) (sched : List ℕ)
    (hs : ∀ t ∈ sched, t < N) (st : DynState) (h : DynInv work R C N st) :
    DynInv work R C N (dynRun work C sched st) := by
  induction sched generalizing st with
  | nil => exact h
  | cons a l ih =>
      have ha : a < N := hs a (List.mem_cons_self a l)
      have hl : ∀ t ∈ l, t < N := fun t ht => hs t (List.mem_cons_of_mem a ht)
      exact ih hl (dynStep work C st a) (dynInv_step work R C N st a ha h)

/-- Consequences of the invariant once any worker has terminated: the
counter is 0, the claimed trace is all of [0, R) in descending order, the
row counts sum to R and the per-worker sums reduce to the matrix total. -/
theorem dynRun_final (work : ℕ → ℕ → ℕ) (R C N : ℕ) (sched : List ℕ)
    (hs : ∀ t ∈ sched, t < N) (tid : ℕ)
    (hd : (dynRun work C sched (dynInit R)).done tid = true) :
    (dynRun work C sched (dynInit R)).counter = 0 ∧
    (dynRun work C sched (dynInit R)).claimed = (List.range R).reverse ∧
    (∑ t ∈ Finset.range N, (dynRun work C sched (dynInit R)).tcount t) = R ∧
    (∑ t ∈ Finset.range N, (dynRun work C sched (dynInit R)).sums t) % U64
      = matrixTotal work R C % U64 := by
  have hinv := dynInv_run work R C N sched hs (dynInit R) (dynInv_init work R C N)
  have hc0 : (dynRun work C sched (dynInit R)).counter = 0 :=
    hinv.done_counter tid hd
  refine ⟨hc0, ?_, ?_, ?_⟩
  · rw [hinv.claimed_eq, hc0, Nat.sub_zero, ← List.range_eq_range']
  · rw [hinv.tcount_sum, hc0, Nat.sub_zero]
  · rw [hinv.sums_sum, hc0, ← Finset.range_eq_Ico]
    rfl

/-- Aggregated results of the static strategy: summed worker row counts
give R, and folded worker sums give the reduced matrix total. -/
theorem static_totals (work : ℕ → ℕ → ℕ) (R C N fuel : ℕ) (hN : 1 ≤ N)
    (hfuel : R < fuel) :
    total_workOf (fun i => (sum_static work R C N i fuel).tc) N = R ∧
    gross_sumOf (fun i => (sum_static work R C N i fuel).s) N
      = matrixTotal work R C % U64 := by
  have htc : ∀ i, (sum_static work R C N i fuel).tc = staticK R N i := fun i => by
    rw [sum_static_spec work R C N i fuel hN hfuel]
  have hsm : ∀ i, (sum_static work R C N i fuel).s
      = (∑ k ∈ Finset.range (staticK R N i), rowTotal work C (i + N * k)) % U64 := fun i => by
    rw [sum_static_spec work R C N i fuel hN hfuel]
  constructor
  · rw [total_workOf]
    simp only [htc]
    have h1 := sum_strides R N hN (fun _ => 1)
    simpa using h1
  · rw [gross_sumOf_eq]
    simp only [hsm]
    rw [← Finset.sum_nat_mod, sum_strides R N hN (rowTotal work C)]
    rfl

/-- Across all N workers, each row below R lies in exactly one stride
list. -/
theorem staticRows_count (R N r : ℕ) (hN : 1 ≤ N) :
    (∑ tid ∈ Finset.range N, (staticRowsList R N tid).count r)
      = if r < R then 1 else 0 := by
  have hmod : ∀ t k : ℕ, t < N → (t + N * k) % N = t := by
    intro t k ht
    rw [Nat.mul_comm, Nat.add_mul_mod_self_right]
    exact Nat.mod_eq_of_lt ht
  by_cases hr : r < R
  · rw [if_pos hr]
    rw [Finset.sum_eq_single_of_mem (r % N)
        (Finset.mem_range.mpr (Nat.mod_lt r (by omega)))]
    · rw [count_eq_ite_of_nodup (staticRowsList_nodup R N _ hN), if_pos]
      rw [mem_staticRowsList R N _ r hN]
      refine ⟨⟨r / N, ?_⟩, hr⟩
      rw [Nat.mod_add_div]
    · intro tid htid hne
      rw [count_eq_ite_of_nodup (staticRowsList_nodup R N _ hN), if_neg]
      rw [mem_staticRowsList R N _ r hN]
      rintro ⟨⟨k, rfl⟩, -⟩
      exact hne (hmod tid k (Finset.mem_range.mp htid)).symm
  · rw [if_neg hr]
    apply Finset.sum_eq_zero
    intro tid _
    rw [count_eq_ite_of_nodup (staticRowsList_nodup R N _ hN), if_neg]
    rw [mem_staticRowsList R N _ r hN]
    rintro ⟨-, hlt⟩
    exact hr hlt

/-- With thread count 0 the sum_static loop never sets done: row stays at
tid forever (the undefined caller-error case the spec warns about). -/
theorem staticRun_zero_stride (work : ℕ → ℕ → ℕ) (R C tid : ℕ) (htid : tid < R) :
    ∀ fuel tc s trace,
      (staticRun work R C 0 fuel ⟨tid, tc, s, false, trace⟩).done = false := by
  intro fuel
  induction fuel with
  | zero => intro tc s trace; rfl
  | succ fuel ih =>
      intro tc s trace
      have hnle : ¬ R ≤ tid := Nat.not_le.mpr htid
      have hstep : staticStep work R C 0 ⟨tid, tc, s, false, trace⟩
          = ⟨tid, tc + 1, addRow work C tid s, false, trace ++ [tid]⟩ := by
        simp [staticStep, hnle]
      simp only [staticRun]
      rw [if_neg (by simp), hstep]
      exact ih (tc + 1) (addRow work C tid s) (trace ++ [tid])

/-!
Command line handling in main: getopt over -d and -t, default thread
count 2, atoi of the -t argument stored into the uint32_t limiter and
clamped, usage() on an unrecognized option calling exit(1), return 0 on
normal completion.  Only the exit code and resulting configuration are
modelled; the usage text itself is console output outside the data
contract.
-/

/-- One parsed command line option: -d, -t with its atoi value (a C int),
or an unrecognized option (getopt's default case). -/
inductive CliOpt where
  | flagD : CliOpt
  | flagT : ℤ → CliOpt
  | unknown : CliOpt
deriving DecidableEq

/-- Program configuration: dFlag and the uint32_t limiter. -/
structure Config where
  dFlag : Bool
  limiter : ℕ
deriving DecidableEq

/-- Initial configuration: dFlag = false, limiter = 2. -/
def initConfig : Config := { dFlag := false, limiter := 2 }

/-- The -t case of the option loop: the int t is converted to uint32_t
(reduction mod 2 ^ 32) by the assignment to limiter, then values below 2
are raised to 2 and values above maxThreads are lowered to maxThreads. -/
def clampT (maxThreads : ℕ) (t : ℤ) : ℕ :=
  if (t % (2 : ℤ) ^ 32).toNat < 2 then 2
  else if maxThreads < (t % (2 : ℤ) ^ 32).toNat then maxThreads
  else (t % (2 : ℤ) ^ 32).toNat

/-- One iteration of the getopt loop; none models usage() exiting the
process with code 1. -/
def applyOpt (maxThreads : ℕ) (cfg : Config) : CliOpt → Option Config
  | CliOpt.flagD => some { cfg with dFlag := true }
  | CliOpt.flagT t => some { cfg with limiter := clampT maxThreads t }
  | CliOpt.unknown => none

/-- The whole getopt loop. -/
def parseOpts (maxThreads : ℕ) (opts : List CliOpt) : Option Config :=
  opts.foldlM (applyOpt maxThreads) initConfig

/-- The process exit code: 1 when usage() runs, 0 on normal completion. -/
def mainExitCode (maxThreads : ℕ) (opts : List CliOpt) : ℕ :=
  match parseOpts maxThreads opts with
  | none => 1
  | some _ => 0

theorem foldl_applyOpt_none_iff (m : ℕ) (opts : List CliOpt) :
    ∀ cfg : Config, List.foldlM (applyOpt m) cfg opts = none ↔ CliOpt.unknown ∈ opts := by
  induction opts with
  | nil =>
      intro cfg
      simp
  | cons o l ih =>
      intro cfg
      cases o with
      | flagD => simp [applyOpt, ih]
      | flagT t => simp [applyOpt, ih]
      | unknown => simp [applyOpt]

/-- C1: for every thread count N with 1 <= N <= R and for both strategies,
every row index in [0, R) is processed by exactly one worker: the
combined list of processed row indices over all workers is a permutation
of 0, ..., R-1, with no omission and no duplication.  For the static
strategy the processed rows are the workers' ghost traces; for the
dynamic strategy they are the claimed rows of any completed schedule. -/
theorem claim_C1_coverage (work : ℕ → ℕ → ℕ) (R C N fuel : ℕ) (sched : List ℕ)
    (hN : 1 ≤ N) (hNR : N ≤ R) (hfuel : R < fuel) (hs : ∀ t ∈ sched, t < N)
    (hdone : ∀ t, t < N → (dynRun work C sched (dynInit R)).done t = true) :
    ((List.range N).flatMap fun tid => (sum_static work R C N tid fuel).trace).Perm
      (List.range R) ∧
    (dynRun work C sched (dynInit R)).claimed.Perm (List.range R) := by
  constructor
  · apply List.perm_iff_count.mpr
    intro a
    have htr : ∀ tid, (sum_static work R C N tid fuel).trace = staticRowsList R N tid :=
      fun tid => by rw [sum_static_spec work R C N tid fuel hN hfuel]
    simp only [htr]
    rw [count_flatMap_range, staticRows_count R N a hN,
      count_eq_ite_of_nodup (List.nodup_range R) a]
    simp [List.mem_range]
  · have hfin := dynRun_final work R C N sched hs 0 (hdone 0 (by omega))
    rw [hfin.2.1]
    exact List.reverse_perm (List.range R)

/-- C2: after all workers finish and main aggregates the per-worker
results, total_work equals R and gross_sum equals the exact sum of all
R * C matrix elements, for both strategies and every valid thread count
(the exactness uses that the true total fits in 64 bits, which holds for
the rand()-populated 1000 x 100 instance). -/
theorem claim_C2_aggregates (work : ℕ → ℕ → ℕ) (R C N fuel : ℕ) (sched : List ℕ)
    (hN : 1 ≤ N) (hfuel : R < fuel) (hs : ∀ t ∈ sched, t < N)
    (hdone : ∀ t, t < N → (dynRun work C sched (dynInit R)).done t = true)
    (htot : matrixTotal work R C < U64) :
    total_workOf (fun i => (sum_static work R C N i fuel).tc) N = R ∧
    gross_sumOf (fun i => (sum_static work R C N i fuel).s) N = matrixTotal work R C ∧
    total_workOf (dynRun work C sched (dynInit R)).tcount N = R ∧
    gross_sumOf (dynRun work C sched (dynInit R)).sums N = matrixTotal work R C := by
  have hstat := static_totals work R C N fuel hN hfuel
  have hfin := dynRun_final work R C N sched hs 0 (hdone 0 (by omega))
  have hmod : matrixTotal work R C % U64 = matrixTotal work R C := Nat.mod_eq_of_lt htot
  refine ⟨hstat.1, ?_, ?_, ?_⟩
  · rw [hstat.2, hmod]
  · rw [total_workOf]
    exact hfin.2.2.1
  · rw [gross_sumOf_eq, hfin.2.2.2, hmod]

/-- C4: in the static strategy, worker tid with thread count N >= 1
processes exactly the rows tid, tid + N, tid + 2N, ... that are below R,
each exactly once; its own row counter equals the number of processed
rows and its own accumulator holds the 64-bit sum of the processed rows'
column totals.  (In the embedding each worker's state is a function of
tid alone, reflecting that a worker writes no other worker's slots.) -/
theorem claim_C4_static_worker (work : ℕ → ℕ → ℕ) (R C N tid fuel : ℕ)
    (hN : 1 ≤ N) (htid : tid < N) (hfuel : R < fuel) :
    (∀ r, r ∈ (sum_static work R C N tid fuel).trace
        ↔ (∃ k, r = tid + N * k) ∧ r < R) ∧
    (sum_static work R C N tid fuel).trace.Nodup ∧
    (sum_static work R C N tid fuel).tc = (sum_static work R C N tid fuel).trace.length ∧
    (sum_static work R C N tid fuel).s
      = ((sum_static work R C N tid fuel).trace.map (rowTotal work C)).sum % U64 := by
  rw [sum_static_spec work R C N tid fuel hN hfuel]
  refine ⟨?_, ?_, ?_, ?_⟩
  · intro r
    exact mem_staticRowsList R N tid r hN
  · exact staticRowsList_nodup R N tid hN
  · show staticK R N tid = (staticRowsList R N tid).length
    rw [staticRowsList, List.length_map, List.length_range]
  · show (∑ k ∈ Finset.range (staticK R N tid), rowTotal work C (tid + N * k)) % U64
        = ((staticRowsList R N tid).map (rowTotal work C)).sum % U64
    rw [staticRowsList, List.map_map, sum_map_range]
    rfl

/-- C5: on the same matrix and with the same thread count, the static and
the dynamic strategy produce identical aggregated gross_sum and
total_work (per-worker distributions may differ). -/
theorem claim_C5_strategy_equivalence (work : ℕ → ℕ → ℕ) (R C N fuel : ℕ)
    (sched : List ℕ) (hN : 1 ≤ N) (hfuel : R < fuel) (hs : ∀ t ∈ sched, t < N)
    (hdone : ∀ t, t < N → (dynRun work C sched (dynInit R)).done t = true) :
    total_workOf (fun i => (sum_static work R C N i fuel).tc) N
      = total_workOf (dynRun work C sched (dynInit R)).tcount N ∧
    gross_sumOf (fun i => (sum_static work R C N i fuel).s) N
      = gross_sumOf (dynRun work C sched (dynInit R)).sums N := by
  have hstat := static_totals work R C N fuel hN hfuel
  have hfin := dynRun_final work R C N sched hs 0 (hdone 0 (by omega))
  constructor
  · rw [hstat.1, total_workOf]
    exact hfin.2.2.1.symm
  · rw [hstat.2, gross_sumOf_eq, hfin.2.2.2]

/-- C6: both worker loops terminate: the static loop reaches done with at
most R + 1 iterations whenever N >= 1; with N = 0 (the caller-error case)
it never reaches done, so N >= 1 is a genuine precondition; the dynamic
loop terminates as soon as it observes counter = 0, and a finished worker
takes no further steps. -/
theorem claim_C6_termination (work : ℕ → ℕ → ℕ) (R C N tid fuel : ℕ)
    (st : DynState) (t2 : ℕ) (hN : 1 ≤ N) (hfuel : R < fuel) :
    (sum_static work R C N tid fuel).done = true ∧
    (∀ f2 : ℕ, tid < R → (sum_static work R C 0 tid f2).done = false) ∧
    (st.counter = 0 → (dynStep work C st t2).done t2 = true) ∧
    (st.done t2 = true → dynStep work C st t2 = st) := by
  refine ⟨?_, ?_, ?_, ?_⟩
  · rw [sum_static_spec work R C N tid fuel hN hfuel]
  · intro f2 htid
    exact staticRun_zero_stride work R C tid htid f2 0 0 []
  · intro hc0
    by_cases hd : st.done t2 = true
    · rw [dynStep, if_pos hd]
      exact hd
    · rw [dynStep, if_neg hd, if_neg (by omega)]
      show Function.update st.done t2 true t2 = true
      rw [Function.update_same]
  · intro hd
    rw [dynStep, if_pos hd]

/-- C9: in the dynamic strategy the row index actually used to read the
matrix is the post-decrement counter value, which is always within the
matrix bounds [0, R); and over a completed run the successful claims are
exactly R-1 down to 0, in that order. -/
theorem claim_C9_dynamic_bounds (work : ℕ → ℕ → ℕ) (R C N : ℕ) (sched : List ℕ)
    (hs : ∀ t ∈ sched, t < N) :
    (∀ r ∈ (dynRun work C sched (dynInit R)).claimed, r < R) ∧
    ((∃ tid, tid < N ∧ (dynRun work C sched (dynInit R)).done tid = true) →
      (dynRun work C sched (dynInit R)).claimed = (List.range R).reverse) := by
  have hinv := dynInv_run work R C N sched hs (dynInit R) (dynInv_init work R C N)
  constructor
  · intro r hr
    rw [hinv.claimed_eq, List.mem_reverse, List.mem_range'] at hr
    obtain ⟨i, hi, rfl⟩ := hr
    have := hinv.counter_le
    omega
  · rintro ⟨tid, -, hd⟩
    exact (dynRun_final work R C N sched hs tid hd).2.1

/-- C3 as the code implements it: each claim is a single atomic step
under the SharedCursor lock; if the counter is positive it is decremented
exactly once and the POST-decrement counter value (count_copy) is the row
index the claiming worker then processes (its tcount slot is bumped and
its sum slot receives row count_copy's columns); if the counter is 0 the
worker terminates without decrementing and without claiming. -/
theorem claim_C3_claim_protocol (work : ℕ → ℕ → ℕ) (C : ℕ) (st : DynState)
    (tid : ℕ) (hnd : st.done tid = false) :
    (0 < st.counter →
      (dynStep work C st tid).counter = st.counter - 1 ∧
      (dynStep work C st tid).claimed = st.claimed ++ [st.counter - 1] ∧
      (dynStep work C st tid).tcount tid = st.tcount tid + 1 ∧
      (dynStep work C st tid).sums tid = addRow work C (st.counter - 1) (st.sums tid) ∧
      (dynStep work C st tid).done tid = false) ∧
    (st.counter = 0 →
      (dynStep work C st tid).counter = st.counter ∧
      (dynStep work C st tid).claimed = st.claimed ∧
      (dynStep work C st tid).tcount = st.tcount ∧
      (dynStep work C st tid).sums = st.sums ∧
      (dynStep work C st tid).done tid = true) := by
  have hnd' : ¬ st.done tid = true := by
    rw [hnd]
    exact Bool.false_ne_true
  constructor
  · intro hc
    rw [dynStep, if_neg hnd', if_pos hc]
    refine ⟨rfl, rfl, ?_, ?_, hnd⟩
    · show Function.update st.tcount tid (st.tcount tid + 1) tid = st.tcount tid + 1
      rw [Function.update_same]
    · show Function.update st.sums tid (addRow work C (st.counter - 1) (st.sums tid)) tid
          = addRow work C (st.counter - 1) (st.sums tid)
      rw [Function.update_same]
  · intro hc0
    rw [dynStep, if_neg hnd', if_neg (by omega)]
    refine ⟨rfl, rfl, rfl, rfl, ?_⟩
    show Function.update st.done tid true tid = true
    rw [Function.update_same]

/-- C3 counterexample to the claim as stated: on the very first claim of
a run with the source's counter initialization (counter = rows = 1000),
the pre-decrement counter value is 1000, but the row recorded and
processed (count_copy) is 999, the post-decrement value.  The
pre-decrement value would even be out of bounds. -/
theorem claim_C3_counterexample :
    (dynInit 1000).counter = 1000 ∧
    (dynStep (fun _ _ => 0) 100 (dynInit 1000) 0).claimed = [999] ∧
    (999 : ℕ) ≠ 1000 := by
  refine ⟨rfl, ?_, by omega⟩
  rw [dynStep, if_neg ?hnd, if_pos ?hc]
  case hnd => simp [dynInit]
  case hc => simp [dynInit]
  rfl

/-- C7 as the code implements it: with no -t option the thread count
stays at its default 2; a supplied value is first converted to uint32_t
(so negative atoi results wrap, see the companion overflow theorem) and
then the stored value is clamped into [2, maxThreads] whenever
maxThreads >= 2: a converted value below 2 becomes 2, a converted value
above maxThreads becomes maxThreads, and anything in between is kept. -/
theorem claim_C7_thread_clamp (m : ℕ) (t : ℤ) (hm : 2 ≤ m) :
    parseOpts m [] = some initConfig ∧
    initConfig.limiter = 2 ∧
    ((t % (2 : ℤ) ^ 32).toNat < 2 → clampT m t = 2) ∧
    (m < (t % (2 : ℤ) ^ 32).toNat → clampT m t = m) ∧
    (2 ≤ (t % (2 : ℤ) ^ 32).toNat → (t % (2 : ℤ) ^ 32).toNat ≤ m →
      clampT m t = (t % (2 : ℤ) ^ 32).toNat) ∧
    (2 ≤ clampT m t ∧ clampT m t ≤ m) := by
  refine ⟨rfl, rfl, ?_, ?_, ?_, ?_⟩
  · intro hlt
    rw [clampT, if_pos hlt]
  · intro hgt
    rw [clampT, if_neg (by omega), if_pos hgt]
  · intro h2 hle
    rw [clampT, if_neg (by omega), if_neg (by omega)]
  · rw [clampT]
    by_cases h1 : (t % (2 : ℤ) ^ 32).toNat < 2
    · rw [if_pos h1]
      omega
    · rw [if_neg h1]
      by_cases h2 : m < (t % (2 : ℤ) ^ 32).toNat
      · rw [if_pos h2]
        omega
      · rw [if_neg h2]
        omega

/-- C7 counterexample to the claim as stated: the supplied value -5 is
below 2, yet with maxThreads = 4 the resulting thread count is 4, not 2,
because the int is converted to uint32_t before the comparison. -/
theorem claim_C7_counterexample :
    (-5 : ℤ) < 2 ∧ clampT 4 (-5) = 4 ∧ (4 : ℕ) ≠ 2 := by
  refine ⟨by norm_num, ?_, by omega⟩
  have hmod : ((-5 : ℤ) % (2 : ℤ) ^ 32).toNat = 4294967291 := by decide
  rw [clampT, hmod, if_neg (by omega), if_pos (by omega)]

/-- C8 as the code implements it: the exit code is 1 exactly when an
unrecognized option occurs (getopt's default case runs usage() which
calls exit(1)); otherwise the program completes normally with exit code
0.  In particular an out-of-range -t value is NOT a usage error: it is
silently clamped (see the counterexample). -/
theorem claim_C8_exit_codes (m : ℕ) (opts : List CliOpt) :
    mainExitCode m opts = if CliOpt.unknown ∈ opts then 1 else 0 := by
  by_cases hmem : CliOpt.unknown ∈ opts
  · rw [if_pos hmem, mainExitCode, parseOpts,
      (foldl_applyOpt_none_iff m opts initConfig).mpr hmem]
  · rw [if_neg hmem, mainExitCode]
    have hne : ¬ List.foldlM (applyOpt m) initConfig opts = none := by
      intro hc
      exact hmem ((foldl_applyOpt_none_iff m opts initConfig).mp hc)
    rw [parseOpts]
    cases hp : List.foldlM (applyOpt m) initConfig opts with
    | none => exact absurd hp hne
    | some cfg => rfl

/-- C8 counterexample to the claim as stated: the supplied thread count
1000000 is far outside [2, maxThreads] for maxThreads = 8, yet the
program does not print usage and exit 1 - it clamps the value to 8 and
completes normally with exit code 0. -/
theorem claim_C8_counterexample :
    clampT 8 1000000 = 8 ∧
    mainExitCode 8 [CliOpt.flagT 1000000] = 0 ∧
    (0 : ℕ) ≠ 1 := by
  refine ⟨?_, ?_, by omega⟩
  · have hmod : ((1000000 : ℤ) % (2 : ℤ) ^ 32).toNat = 1000000 := by decide
    rw [clampT, hmod, if_neg (by omega), if_pos (by omega)]
  · rfl

/-- C10: a negative -t value, parsed by atoi into an int and assigned to
the uint32_t limiter, wraps modulo 2 ^ 32 to a value of at least 2 ^ 31
and is therefore clamped DOWN to maxThreads (for any realistic
maxThreads below 2 ^ 31), not raised up to the minimum of 2. -/
theorem claim_C10_negative_wraps (m : ℕ) (t : ℤ) (ht : t < 0)
    (hlo : -(2 : ℤ) ^ 31 ≤ t) (hm : m < 2 ^ 31) :
    2 ^ 31 ≤ (t % (2 : ℤ) ^ 32).toNat ∧ clampT m t = m := by
  have h32 : (2 : ℤ) ^ 32 = 4294967296 := by norm_num
  have h31 : (2 : ℤ) ^ 31 = 2147483648 := by norm_num
  have hmod : t % (2 : ℤ) ^ 32 = t + 4294967296 := by
    rw [h32]
    omega
  have hbig : (2147483648 : ℤ) ≤ t + 4294967296 := by omega
  have htn : 2 ^ 31 ≤ (t % (2 : ℤ) ^ 32).toNat := by
    rw [hmod]
    omega
  refine ⟨htn, ?_⟩
  rw [clampT, if_neg (by omega), if_pos (by omega)]

/-!
Concrete instantiations.  Each of the following closed statements applies
one of the claim theorems at explicit inputs: the all-ones 3 x 2 matrix,
two workers, fuel 4 and the completing schedule [0, 1, 0, 1, 0] (worker 0
claims row 2, worker 1 claims row 1, worker 0 claims row 0, then both
observe the zero counter and stop).
-/

theorem claim_C1_coverage_witness :
    ((List.range 2).flatMap fun tid => (sum_static (fun _ _ => 1) 3 2 2 tid 4).trace).Perm
      (List.range 3) ∧
    (dynRun (fun _ _ => 1) 2 [0, 1, 0, 1, 0] (dynInit 3)).claimed.Perm (List.range 3) :=
  claim_C1_coverage (fun _ _ => 1) 3 2 2 4 [0, 1, 0, 1, 0] (by omega) (by omega)
    (by omega) (by decide) (by decide)

theorem claim_C2_aggregates_witness :
    total_workOf (fun i => (sum_static (fun _ _ => 1) 3 2 2 i 4).tc) 2 = 3 ∧
    gross_sumOf (fun i => (sum_static (fun _ _ => 1) 3 2 2 i 4).s) 2
      = matrixTotal (fun _ _ => 1) 3 2 ∧
    total_workOf (dynRun (fun _ _ => 1) 2 [0, 1, 0, 1, 0] (dynInit 3)).tcount 2 = 3 ∧
    gross_sumOf (dynRun (fun _ _ => 1) 2 [0, 1, 0, 1, 0] (dynInit 3)).sums 2
      = matrixTotal (fun _ _ => 1) 3 2 :=
  claim_C2_aggregates (fun _ _ => 1) 3 2 2 4 [0, 1, 0, 1, 0] (by omega) (by omega)
    (by decide) (by decide) (by decide)

theorem claim_C3_claim_protocol_witness :
    (0 < (dynInit 5).counter →
      (dynStep (fun _ _ => 1) 2 (dynInit 5) 0).counter = (dynInit 5).counter - 1 ∧
      (dynStep (fun _ _ => 1) 2 (dynInit 5) 0).claimed
        = (dynInit 5).claimed ++ [(dynInit 5).counter - 1] ∧
      (dynStep (fun _ _ => 1) 2 (dynInit 5) 0).tcount 0 = (dynInit 5).tcount 0 + 1 ∧
      (dynStep (fun _ _ => 1) 2 (dynInit 5) 0).sums 0
        = addRow (fun _ _ => 1) 2 ((dynInit 5).counter - 1) ((dynInit 5).sums 0) ∧
      (dynStep (fun _ _ => 1) 2 (dynInit 5) 0).done 0 = false) ∧
    ((dynInit 5).counter = 0 →
      (dynStep (fun _ _ => 1) 2 (dynInit 5) 0).counter = (dynInit 5).counter ∧
      (dynStep (fun _ _ => 1) 2 (dynInit 5) 0).claimed = (dynInit 5).claimed ∧
      (dynStep (fun _ _ => 1) 2 (dynInit 5) 0).tcount = (dynInit 5).tcount ∧
      (dynStep (fun _ _ => 1) 2 (dynInit 5) 0).sums = (dynInit 5).sums ∧
      (dynStep (fun _ _ => 1) 2 (dynInit 5) 0).done 0 = true) :=
  claim_C3_claim_protocol (fun _ _ => 1) 2 (dynInit 5) 0 (by decide)

theorem claim_C4_static_worker_witness :
    (∀ r, r ∈ (sum_static (fun _ _ => 1) 3 2 2 1 4).trace
        ↔ (∃ k, r = 1 + 2 * k) ∧ r < 3) ∧
    (sum_static (fun _ _ => 1) 3 2 2 1 4).trace.Nodup ∧
    (sum_static (fun _ _ => 1) 3 2 2 1 4).tc
      = (sum_static (fun _ _ => 1) 3 2 2 1 4).trace.length ∧
    (sum_static (fun _ _ => 1) 3 2 2 1 4).s
      = ((sum_static (fun _ _ => 1) 3 2 2 1 4).trace.map
          (rowTotal (fun _ _ => 1) 2)).sum % U64 :=
  claim_C4_static_worker (fun _ _ => 1) 3 2 2 1 4 (by omega) (by omega) (by omega)

theorem claim_C5_strategy_equivalence_witness :
    total_workOf (fun i => (sum_static (fun _ _ => 1) 3 2 2 i 4).tc) 2
      = total_workOf (dynRun (fun _ _ => 1) 2 [0, 1, 0, 1, 0] (dynInit 3)).tcount 2 ∧
    gross_sumOf (fun i => (sum_static (fun _ _ => 1) 3 2 2 i 4).s) 2
      = gross_sumOf (dynRun (fun _ _ => 1) 2 [0, 1, 0, 1, 0] (dynInit 3)).sums 2 :=
  claim_C5_strategy_equivalence (fun _ _ => 1) 3 2 2 4 [0, 1, 0, 1, 0] (by omega)
    (by omega) (by decide) (by decide)

theorem claim_C6_termination_witness :
    (sum_static (fun _ _ => 1) 3 2 1 0 4).done = true ∧
    (∀ f2 : ℕ, 0 < 3 → (sum_static (fun _ _ => 1) 3 2 0 0 f2).done = false) ∧
    ((dynInit 0).counter = 0 →
      (dynStep (fun _ _ => 1) 2 (dynInit 0) 0).done 0 = true) ∧
    ((dynInit 0).done 0 = true → dynStep (fun _ _ => 1) 2 (dynInit 0) 0 = dynInit 0) :=
  claim_C6_termination (fun _ _ => 1) 3 2 1 0 4 (dynInit 0) 0 (by omega) (by omega)

theorem claim_C7_thread_clamp_witness :
    parseOpts 4 [] = some initConfig ∧
    initConfig.limiter = 2 ∧
    (((7 : ℤ) % (2 : ℤ) ^ 32).toNat < 2 → clampT 4 7 = 2) ∧
    (4 < ((7 : ℤ) % (2 : ℤ) ^ 32).toNat → clampT 4 7 = 4) ∧
    (2 ≤ ((7 : ℤ) % (2 : ℤ) ^ 32).toNat → ((7 : ℤ) % (2 : ℤ) ^ 32).toNat ≤ 4 →
      clampT 4 7 = ((7 : ℤ) % (2 : ℤ) ^ 32).toNat) ∧
    (2 ≤ clampT 4 7 ∧ clampT 4 7 ≤ 4) :=
  claim_C7_thread_clamp 4 7 (by omega)

theorem claim_C9_dynamic_bounds_witness :
    (∀ r ∈ (dynRun (fun _ _ => 1) 2 [0, 0, 0, 0] (dynInit 3)).claimed, r < 3) ∧
    ((∃ tid, tid < 1 ∧ (dynRun (fun _ _ => 1) 2 [0, 0, 0, 0] (dynInit 3)).done tid = true) →
      (dynRun (fun _ _ => 1) 2 [0, 0, 0, 0] (dynInit 3)).claimed = (List.range 3).reverse) :=
  claim_C9_dynamic_bounds (fun _ _ => 1) 3 2 1 [0, 0, 0, 0] (by decide)

theorem claim_C10_negative_wraps_witness :
    2 ^ 31 ≤ ((-5 : ℤ) % (2 : ℤ) ^ 32).toNat ∧ clampT 8 (-5) = 8 :=
  claim_C10_negative_wraps 8 (-5) (by omega) (by omega) (by omega)

end Reduce
